import Mathlib

/-!
Shallow embedding of the trend-keywords bot pipeline (`app.py`):
item collection, per-source deduplication, token extraction, frequency
ranking, bounded evidence indexing, channel-id resolution, and the
run's early-exit control flow.  Machine strings are modelled as Lean
`String`s (lists of characters); the ASCII-oriented operations of the
source (`str.lower`, `str.upper`, the regex character classes) are
modelled by the corresponding ASCII character maps.
-/

namespace Trend

/-- A normalized `(source, title, link)` record, as produced by the parsers. -/
structure Item where
  source : String
  title : String
  link : String
deriving DecidableEq, Repr

/-! ## Deduplicator (`dedup` in app.py)

`dedup` iterates once over the items keeping a set `seen` of keys
`(title.lower(), link)`; an item is emitted the first time its key is
seen.  The Python `set` is modelled by a list of keys with membership
lookup. -/

/-- Python `str.lower()` modelled character-wise (exact on the ASCII
range the filters and keys rely on). -/
def pyLower (s : String) : String := String.mk (s.data.map Char.toLower)

/-- Identity key used by `dedup`: `(title.lower(), link)`. -/
def itemKey (it : Item) : String × String := (pyLower it.title, it.link)

/-- The loop of `dedup`, with the `seen` set made explicit. -/
def dedupGo (seen : List (String × String)) : List Item → List Item
  | [] => []
  | it :: rest =>
    if itemKey it ∈ seen then dedupGo seen rest
    else it :: dedupGo (itemKey it :: seen) rest

/-- `dedup(items)` from app.py. -/
def dedup (items : List Item) : List Item := dedupGo [] items

/-! ## Token extraction (`extract_tokens`, `TOKEN_RE`, `STOPWORDS`)

`TOKEN_RE = [A-Za-z0-9][A-Za-z0-9#\+\.\-]{1,30}` is scanned with
`finditer`: non-overlapping leftmost matches, the quantifier greedy.
We model the scan directly: at each position, if the character is
ASCII-alphanumeric and is followed by at least one continuation
character, the match takes the head plus the maximal run of up to 30
continuation characters; otherwise scanning advances one position. -/

/-- The regex class `[A-Za-z0-9]` (first character of a token). -/
def isAsciiAlnum (c : Char) : Bool := c.isAlpha || c.isDigit

/-- The regex class `[A-Za-z0-9#\+\.\-]` (continuation characters). -/
def isTokenCont (c : Char) : Bool :=
  isAsciiAlnum c || c == '#' || c == '+' || c == '.' || c == '-'

/-- Length of the greedy continuation run: the longest prefix of `l`
consisting of continuation characters, capped at `n` (the regex cap 30). -/
def contLen : Nat → List Char → Nat
  | _, [] => 0
  | 0, _ => 0
  | n + 1, c :: rest => if isTokenCont c then contLen n rest + 1 else 0

/-- One scan step of `finditer(TOKEN_RE, text)`: `p` is the index of
the head of the list in the full string.  A match needs an
alphanumeric start and at least one continuation character (`{1,30}`);
a failed attempt advances the scan by one character, a match resumes
after its end.  `fuel` bounds the recursion; every step strictly
shortens the list, so any `fuel ≥ length` computes the full scan. -/
def scanAux : Nat → Nat → List Char → List (Nat × List Char)
  | 0, _, _ => []
  | _ + 1, _, [] => []
  | fuel + 1, p, c :: rest =>
    if isAsciiAlnum c = true ∧ 0 < contLen 30 rest then
      (p, c :: rest.take (contLen 30 rest)) ::
        scanAux fuel (p + 1 + contLen 30 rest) (rest.drop (contLen 30 rest))
    else scanAux fuel (p + 1) rest

/-- `finditer(TOKEN_RE, text)` with match start positions. -/
def scanTokensPos (p : Nat) (l : List Char) : List (Nat × List Char) :=
  scanAux l.length p l

/-- The fixed stopword set from app.py. -/
def STOPWORDS : List String :=
  ["the", "of", "and", "for", "with", "from", "this", "that", "what", "when",
   "where", "how", "why", "who", "whose", "your", "you", "into", "out", "are",
   "is", "in", "on", "to", "a", "an", "by", "at", "as", "or", "not",
   "home", "about", "login", "signup", "tags", "jobs", "help", "privacy",
   "terms", "stackexchange", "stackoverflow", "qiita", "github", "trending",
   "follow", "issue", "pull"]

/-- Python `str.isdigit()` restricted to the ASCII range relevant here:
non-empty and all characters decimal digits. -/
def pyIsDigit (s : String) : Bool := !s.data.isEmpty && s.data.all Char.isDigit

/-- The filtering condition of `extract_tokens`: a match `w` is dropped
when its lowercase form is a stopword, or is purely digits, or `w` has
length ≤ 1. -/
def dropToken (w : String) : Prop :=
  pyLower w ∈ STOPWORDS ∨ pyIsDigit (pyLower w) = true ∨ w.length ≤ 1

instance (w : String) : Decidable (dropToken w) := by
  unfold dropToken
  infer_instance

/-- `extract_tokens(text)` from app.py: the surviving matches, in scan
order, original casing kept. -/
def extract_tokens (text : String) : List String :=
  (scanTokensPos 0 text.data).filterMap (fun m =>
    let w := String.mk m.2
    if dropToken w then none else some w)

/-- `extract_tokens` with each token paired with its match position. -/
def extractTokensPos (text : String) : List (Nat × String) :=
  (scanTokensPos 0 text.data).filterMap (fun m =>
    let w := String.mk m.2
    if dropToken w then none else some (m.1, w))

/-! ## Frequency counting and ranking (`analyze`, `Counter.most_common`)

`collections.Counter` is an insertion-ordered map token → count; we
model it as an association list: incrementing an existing key keeps its
place, a new key is appended at the end.  `most_common(n)` selects the
`n` largest counts; CPython implements it with `heapq.nlargest` keyed
on the count, which is equivalent to a stable descending sort by count
followed by `take n` (ties keep the order of `Counter` iteration, i.e.
insertion order).  We model that by a stable insertion sort. -/

/-- `counter[t] += 1` on an insertion-ordered association list. -/
def bump : List (String × Nat) → String → List (String × Nat)
  | [], t => [(t, 1)]
  | (k, n) :: rest, t =>
    if k = t then (k, n + 1) :: rest else (k, n) :: bump rest t

/-- The token stream of the counting loop of `analyze`: all tokens of
all titles, in item order. -/
def tokenStream (items : List Item) : List String :=
  (items.map (fun it => extract_tokens it.title)).flatten

/-- The `Counter` built by the first loop of `analyze`. -/
def buildCounter (items : List Item) : List (String × Nat) :=
  (tokenStream items).foldl bump []

/-- Lookup of a token's count in the association-list counter
(0 if absent). -/
def cnt : List (String × Nat) → String → Nat
  | [], _ => 0
  | (k, n) :: rest, t => if k = t then n else cnt rest t

/-- The distinct tokens of a stream in order of first occurrence,
relative to a set `seen` of tokens already recorded; this is the key
order of the insertion-ordered counter. -/
def firstOccs (seen : List String) : List String → List String
  | [] => []
  | t :: rest =>
    if t ∈ seen then firstOccs seen rest else t :: firstOccs (t :: seen) rest

/-- The index in a token stream at which a token attains its final
count: the smallest `i` with `count t (take (i+1) l) = count t l`
(the position of the token's last occurrence). -/
def reachIdx (l : List String) (t : String) : Nat :=
  (List.range l.length).findIdx (fun i => (l.take (i + 1)).count t == l.count t)

/-- Stable descending insertion by count: `x` moves past exactly the
entries with a strictly larger count, so earlier entries win ties. -/
def insertDesc (x : String × Nat) : List (String × Nat) → List (String × Nat)
  | [] => [x]
  | y :: ys => if x.2 < y.2 then y :: insertDesc x ys else x :: y :: ys

/-- Stable descending sort by count. -/
def sortCountDesc : List (String × Nat) → List (String × Nat)
  | [] => []
  | x :: xs => insertDesc x (sortCountDesc xs)

/-- `Counter.most_common(n)`: the `n` largest counts, stably ordered. -/
def most_common (n : Nat) (c : List (String × Nat)) : List (String × Nat) :=
  (sortCountDesc c).take n

/-- `TOP_K` (env default 10). -/
def TOP_K : Nat := 10

/-- `POST_LIMIT_PER_SOURCE` (env default 5). -/
def POST_LIMIT_PER_SOURCE : Nat := 5

/-- The body of the evidence loop of `analyze` for one item and one
ranked entry `kc`: the item is appended to `related[kc.1]` when the
keyword is in the set of tokens of the title, the link is non-empty,
and the list is still below `POST_LIMIT_PER_SOURCE`. -/
def relatedInner (it : Item) (rel : String → List Item) (kc : String × Nat) :
    String → List Item :=
  if kc.1 ∈ extract_tokens it.title ∧ it.link ≠ "" ∧
      (rel kc.1).length < POST_LIMIT_PER_SOURCE then
    Function.update rel kc.1 (rel kc.1 ++ [it])
  else rel

/-- `analyze(items)` from app.py.  The first component is
`counter.most_common(TOP_K)`.  The second models the dict `related`
(keys drawn from `top`, all initialized to `[]`, here a total function
defaulting to `[]`): for each item in order and each ranked keyword,
the append condition of `relatedInner` is applied. -/
def analyze (items : List Item) : List (String × Nat) × (String → List Item) :=
  let counter := buildCounter items
  let top := most_common TOP_K counter
  let related :=
    items.foldl (fun (rel : String → List Item) (it : Item) =>
      top.foldl (relatedInner it) rel)
      (fun _ => ([] : List Item))
  (top, related)

/-- The effect of one item on one fixed keyword's evidence list in the
evidence loop of `analyze`. -/
def relatedStep (k : String) (acc : List Item) (it : Item) : List Item :=
  if k ∈ extract_tokens it.title ∧ it.link ≠ "" ∧
      acc.length < POST_LIMIT_PER_SOURCE then acc ++ [it] else acc

/-- The evidence list a single keyword accumulates over the item scan. -/
def relatedFor (k : String) (items : List Item) : List Item :=
  items.foldl (relatedStep k) []

/-! ## Global accumulation in `main`

Each parser deduplicates its own output (`return dedup(items)`), and
`main` extends the global list with the parser outputs without any
further dedup pass. -/

/-- The accumulation of per-source parser outputs in `main`:
each source's parsed items are deduplicated by the parser itself and
then concatenated onto the global list. -/
def collectItems (parsed : List (List Item)) : List Item :=
  parsed.foldl (fun acc l => acc ++ dedup l) []

/-! ## Channel-id resolution (`resolve_channel_id`, `ID_RE`)

`ID_RE = \b[CG][A-Z0-9]{8,}\b` is searched (`re.search`) over the
uppercased, stripped input.  `re.search` tries each start position
left to right.  At a candidate start the leading `\b` requires the
previous character (if any) to be a non-word character; the greedy
`[A-Z0-9]{8,}` takes the maximal run, and only the maximal run can be
followed by a word boundary (any shorter prefix is followed by a
`[A-Z0-9]` character, which is a word character), so a candidate matches
exactly when the maximal run has length ≥ 8 and the character after it
(if any) is not a word character.  `\w` is modelled over the ASCII
range (`[A-Za-z0-9_]`), which covers the uppercased strings involved. -/

/-- ASCII fragment of the regex class `\w`. -/
def isPyWordChar (c : Char) : Bool := isAsciiAlnum c || c == '_'

/-- The regex class `[A-Z0-9]` (identifier body). -/
def isIdBodyChar (c : Char) : Bool := c.isUpper || c.isDigit

/-- `re.search(ID_RE, s)`: scan start positions left to right, `prev`
the character before the current position (none at the string start). -/
def searchIDGo (prev : Option Char) : List Char → Option String
  | [] => none
  | c :: rest =>
    let boundary := match prev with | none => true | some p => !isPyWordChar p
    let run := rest.takeWhile isIdBodyChar
    let after := rest.dropWhile isIdBodyChar
    let tailBoundary := match after with | [] => true | d :: _ => !isPyWordChar d
    if (c == 'C' || c == 'G') && boundary && decide (8 ≤ run.length) && tailBoundary
    then some (String.mk (c :: run))
    else searchIDGo (some c) rest

/-- Python `str.strip()`: whitespace removed from both ends. -/
def pyStrip (s : String) : String :=
  String.mk (((s.data.dropWhile Char.isWhitespace).reverse.dropWhile
    Char.isWhitespace).reverse)

/-- Python `str.lstrip("#")`: leading `#` characters removed. -/
def pyLstripHash (s : String) : String :=
  String.mk (s.data.dropWhile (fun c => c == '#'))

/-- Python `str.split()` (no argument): split on whitespace runs,
empty pieces discarded.  The remainder after a word is expressed by
dropping the word's length (equal to `dropWhile` of the non-space
predicate); `fuel ≥ length` computes the full split. -/
def splitWsAux : Nat → List Char → List (List Char)
  | 0, _ => []
  | _ + 1, [] => []
  | fuel + 1, c :: rest =>
    if Char.isWhitespace c then splitWsAux fuel rest
    else (c :: rest.takeWhile (fun d => !Char.isWhitespace d)) ::
      splitWsAux fuel (rest.drop (rest.takeWhile (fun d => !Char.isWhitespace d)).length)

/-- Python `str.split()` (no argument). -/
def pySplitWs (l : List Char) : List (List Char) := splitWsAux l.length l

/-- The two failure modes of `resolve_channel_id`: the declared
`RuntimeError` on an empty input, and the `IndexError` raised by
`split()[0]` when the token list is empty. -/
inductive ResolveErr where
  | emptyChannel
  | indexOutOfRange
deriving DecidableEq, Repr

/-- `resolve_channel_id(raw)` from app.py: raise on empty input;
otherwise strip, search `ID_RE` over the uppercased string and return
the match if any; otherwise strip leading `#` and return the first
whitespace-delimited token, an out-of-range access if there is none. -/
def resolve_channel_id (raw : String) : Except ResolveErr String :=
  if raw = "" then Except.error ResolveErr.emptyChannel
  else
    let s := pyStrip raw
    match searchIDGo none (s.data.map Char.toUpper) with
    | some m => Except.ok m
    | none =>
      match pySplitWs (pyLstripHash s).data with
      | [] => Except.error ResolveErr.indexOutOfRange
      | t :: _ => Except.ok (String.mk t)

/-! ## Run control flow (`main`)

After collection, `main` returns early (printing a status line) when
no items were collected, and again when `analyze` produced no ranked
keywords; only otherwise does it write the digest markdown, mutate the
index document, and post to Slack.  The side effects are modelled as
an explicit effect list. -/

/-- The externally visible effects of the tail of `main`. -/
inductive Effect where
  | printStatus (msg : String)
  | saveDigest
  | updateIndex
  | postSlack
deriving DecidableEq, Repr

/-- The effect trace of `main` after item collection: the two
early-exit checks of app.py, then digest save (which writes the dated
document and mutates the index) and the Slack post. -/
def mainEffects (items : List Item) : List Effect :=
  if items = [] then
    [Effect.printStatus "No items fetched. Skipping Slack post and Pages update."]
  else if (analyze items).1 = [] then
    [Effect.printStatus "No keywords extracted. Skipping post."]
  else
    [Effect.saveDigest, Effect.updateIndex, Effect.postSlack,
     Effect.printStatus "Done."]

/-! ## Lemmas about the deduplicator -/

theorem dedupGo_sublist (seen : List (String × String)) (xs : List Item) :
    List.Sublist (dedupGo seen xs) xs := by
  induction xs generalizing seen with
  | nil => simp [dedupGo]
  | cons it rest ih =>
    by_cases hk : itemKey it ∈ seen
    · simp only [dedupGo, if_pos hk]
      exact List.Sublist.cons it (ih seen)
    · simp only [dedupGo, if_neg hk]
      exact List.Sublist.cons₂ it (ih _)

theorem dedupGo_not_seen (seen : List (String × String)) (xs : List Item) :
    ∀ it ∈ dedupGo seen xs, itemKey it ∉ seen := by
  induction xs generalizing seen with
  | nil => simp [dedupGo]
  | cons it rest ih =>
    by_cases hk : itemKey it ∈ seen
    · simp only [dedupGo, if_pos hk]
      exact ih seen
    · simp only [dedupGo, if_neg hk]
      intro b hb
      rcases List.mem_cons.mp hb with rfl | h
      · exact hk
      · have h2 := ih (itemKey it :: seen) b h
        intro hmem
        exact h2 (List.mem_cons_of_mem _ hmem)

theorem dedupGo_pairwise (seen : List (String × String)) (xs : List Item) :
    List.Pairwise (fun a b => itemKey a ≠ itemKey b) (dedupGo seen xs) := by
  induction xs generalizing seen with
  | nil => simp [dedupGo]
  | cons it rest ih =>
    by_cases hk : itemKey it ∈ seen
    · simpa only [dedupGo, if_pos hk] using ih seen
    · simp only [dedupGo, if_neg hk]
      refine List.Pairwise.cons ?_ (ih _)
      intro b hb he
      have h2 := dedupGo_not_seen (itemKey it :: seen) rest b hb
      exact h2 (by rw [← he]; exact List.mem_cons_self _ _)

theorem dedupGo_filter (k : String × String) (seen : List (String × String))
    (xs : List Item) :
    (dedupGo seen xs).filter (fun it => decide (itemKey it = k)) =
      if k ∈ seen then [] else
        (xs.filter (fun it => decide (itemKey it = k))).take 1 := by
  induction xs generalizing seen with
  | nil => simp [dedupGo]
  | cons it rest ih =>
    by_cases hk : itemKey it ∈ seen
    · by_cases hkk : itemKey it = k
      · subst hkk
        simp only [dedupGo, if_pos hk, ih, if_pos hk]
      · simp only [dedupGo, if_pos hk, ih]
        by_cases hs : k ∈ seen
        · simp [hs]
        · simp [hs, List.filter_cons, hkk]
    · by_cases hkk : itemKey it = k
      · subst hkk
        have hmem : itemKey it ∈ itemKey it :: seen := List.mem_cons_self _ _
        simp only [dedupGo, if_neg hk, List.filter_cons, decide_eq_true_eq,
          if_pos rfl, ih, if_pos hmem, if_neg hk]
        simp
      · simp only [dedupGo, if_neg hk, List.filter_cons, decide_eq_true_eq,
          if_neg hkk, ih]
        by_cases hs : k ∈ seen
        · have hm : k ∈ itemKey it :: seen := List.mem_cons_of_mem _ hs
          simp [hs, hm]
        · have hm : ¬ (k ∈ itemKey it :: seen) := by
            intro h
            rcases List.mem_cons.mp h with h1 | h1
            · exact hkk h1.symm
            · exact hs h1
          simp [hs, hm]

/-- C5: `dedup` returns a subsequence of its input (original order
preserved), no two surviving items share a `(lowercased title, link)`
key, and for each key exactly the first item bearing it survives. -/
theorem c5_dedup_first_seen (xs : List Item) :
    List.Sublist (dedup xs) xs ∧
    List.Pairwise (fun a b => itemKey a ≠ itemKey b) (dedup xs) ∧
    ∀ k : String × String,
      (dedup xs).filter (fun it => decide (itemKey it = k)) =
        (xs.filter (fun it => decide (itemKey it = k))).take 1 := by
  refine ⟨dedupGo_sublist [] xs, dedupGo_pairwise [] xs, fun k => ?_⟩
  have h := dedupGo_filter k [] xs
  simpa using h

/-- Concrete instantiation of the `dedup` contract. -/
theorem c5_witness :
    List.Sublist
      (dedup [Item.mk "A" "Rust" "L", Item.mk "B" "rust" "L", Item.mk "A" "Rust" "M"])
      [Item.mk "A" "Rust" "L", Item.mk "B" "rust" "L", Item.mk "A" "Rust" "M"] ∧
    List.Pairwise (fun a b => itemKey a ≠ itemKey b)
      (dedup [Item.mk "A" "Rust" "L", Item.mk "B" "rust" "L", Item.mk "A" "Rust" "M"]) ∧
    ∀ k : String × String,
      (dedup [Item.mk "A" "Rust" "L", Item.mk "B" "rust" "L",
        Item.mk "A" "Rust" "M"]).filter (fun it => decide (itemKey it = k)) =
      ([Item.mk "A" "Rust" "L", Item.mk "B" "rust" "L",
        Item.mk "A" "Rust" "M"].filter (fun it => decide (itemKey it = k))).take 1 :=
  c5_dedup_first_seen
    [Item.mk "A" "Rust" "L", Item.mk "B" "rust" "L", Item.mk "A" "Rust" "M"]

theorem dedupGo_idem (xs : List Item) :
    ∀ seen, dedupGo seen (dedupGo seen xs) = dedupGo seen xs := by
  induction xs with
  | nil => intro seen; simp [dedupGo]
  | cons it rest ih =>
    intro seen
    by_cases hk : itemKey it ∈ seen
    · simp only [dedupGo, if_pos hk]
      exact ih seen
    · simp only [dedupGo, if_neg hk]
      rw [ih (itemKey it :: seen)]

/-- C9: applying `dedup` twice yields the same result as applying it
once. -/
theorem c9_dedup_idempotent : ∀ xs : List Item, dedup (dedup xs) = dedup xs :=
  fun xs => dedupGo_idem xs []

/-- C6: per-source outputs are deduplicated individually and then
concatenated without a second pass, so two items with the same
`(lowercased title, link)` key coming from two different sources both
survive into the globally accumulated item set handed to `analyze`. -/
theorem c6_no_cross_source_dedup :
    collectItems [[Item.mk "SrcA" "Rust" "http://x"],
        [Item.mk "SrcB" "rust" "http://x"]] =
      [Item.mk "SrcA" "Rust" "http://x", Item.mk "SrcB" "rust" "http://x"] ∧
    itemKey (Item.mk "SrcA" "Rust" "http://x") =
      itemKey (Item.mk "SrcB" "rust" "http://x") ∧
    (Item.mk "SrcA" "Rust" "http://x").source ≠
      (Item.mk "SrcB" "rust" "http://x").source := by
  refine ⟨?_, ?_, ?_⟩ <;> decide

/-! ## Channel resolution and run control flow -/

/-- C7: a comment-decorated direct identifier is extracted, a `#name`
falls back to the bare name, and an input with no ID-shaped substring
and no `#` yields its first whitespace token unchanged. -/
theorem c7_resolve_channel_examples :
    resolve_channel_id "C12345678 # main channel" = Except.ok "C12345678" ∧
    resolve_channel_id "#general" = Except.ok "general" ∧
    resolve_channel_id "devroom weekly" = Except.ok "devroom" :=
  ⟨rfl, rfl, rfl⟩

/-- C8: with zero collected items, or a non-empty item set yielding
zero ranked keywords, the run ends cleanly after a single status
message and performs neither the digest write, nor the index
mutation, nor the Slack post. -/
theorem c8_early_exit (items : List Item)
    (h : items = [] ∨ (analyze items).1 = []) :
    ∃ msg, mainEffects items = [Effect.printStatus msg] ∧
      Effect.saveDigest ∉ mainEffects items ∧
      Effect.updateIndex ∉ mainEffects items ∧
      Effect.postSlack ∉ mainEffects items := by
  have hm : ∃ msg, mainEffects items = [Effect.printStatus msg] := by
    by_cases hi : items = []
    · exact ⟨"No items fetched. Skipping Slack post and Pages update.",
        by simp [mainEffects, hi]⟩
    · rcases h with h | h
      · exact absurd h hi
      · exact ⟨"No keywords extracted. Skipping post.",
          by simp [mainEffects, hi, h]⟩
  rcases hm with ⟨msg, hm⟩
  refine ⟨msg, hm, ?_, ?_, ?_⟩ <;> simp [hm]

/-- Concrete instantiation of the early-exit contract: a non-empty
item set whose only title produces no tokens. -/
theorem c8_witness :
    ∃ msg, mainEffects [Item.mk "S" "a" "L"] = [Effect.printStatus msg] ∧
      Effect.saveDigest ∉ mainEffects [Item.mk "S" "a" "L"] ∧
      Effect.updateIndex ∉ mainEffects [Item.mk "S" "a" "L"] ∧
      Effect.postSlack ∉ mainEffects [Item.mk "S" "a" "L"] :=
  c8_early_exit [Item.mk "S" "a" "L"] (Or.inr (by decide))

/-- C10 counterexample: `"# #"` is non-empty and consists only of `#`
and whitespace characters, yet `resolve_channel_id` neither raises the
out-of-bounds error nor the declared empty-input error — it returns
the value `"#"` (the split keeps the second `#` as a token). -/
theorem c10_counterexample :
    "# #" ≠ "" ∧
    (∀ c ∈ ("# #" : String).data, c = '#' ∨ c.isWhitespace = true) ∧
    resolve_channel_id "# #" = Except.ok "#" :=
  ⟨by decide, by decide, rfl⟩

theorem splitWsAux_all_ws (fuel : Nat) (l : List Char)
    (h : l.all Char.isWhitespace = true) : splitWsAux fuel l = [] := by
  induction fuel generalizing l with
  | zero => rfl
  | succ fuel ih =>
    cases l with
    | nil => rfl
    | cons c rest =>
      simp only [List.all_cons, Bool.and_eq_true] at h
      simp only [splitWsAux, if_pos h.1]
      exact ih rest h.2

theorem searchIDGo_no_cg (l : List Char) :
    ∀ prev, (∀ c ∈ l, ¬(c = 'C' ∨ c = 'G')) → searchIDGo prev l = none := by
  induction l with
  | nil => intro prev _; rfl
  | cons c rest ih =>
    intro prev h
    have hc := h c (List.mem_cons_self _ _)
    have h1 : (c == 'C') = false := by
      simp only [beq_eq_false_iff_ne]
      exact fun he => hc (Or.inl he)
    have h2 : (c == 'G') = false := by
      simp only [beq_eq_false_iff_ne]
      exact fun he => hc (Or.inr he)
    simp only [searchIDGo, h1, h2, Bool.or_self, Bool.false_and, Bool.false_or]
    exact ih (some c) (fun d hd => h d (List.mem_cons_of_mem _ hd))

/-- C10 (amended): for every non-empty input whose stripped form is a
run of `#` characters followed only by whitespace (for example `"#"`
or `"   "`), `resolve_channel_id` neither returns a value nor raises
its declared empty-input error: the name fallback indexes an empty
token list, the out-of-bounds failure. -/
theorem c10_hash_ws_fallback_oob (raw : String) (hne : raw ≠ "")
    (h : ((pyStrip raw).data.dropWhile (fun c => c == '#')).all
      Char.isWhitespace = true) :
    resolve_channel_id raw = Except.error ResolveErr.indexOutOfRange := by
  unfold resolve_channel_id
  rw [if_neg hne]
  have hchars : ∀ c ∈ (pyStrip raw).data, (c == '#') = true ∨ c.isWhitespace = true := by
    intro c hcmem
    have hsplit := List.takeWhile_append_dropWhile
      (p := fun c => c == '#') (l := (pyStrip raw).data)
    rw [← hsplit] at hcmem
    rcases List.mem_append.mp hcmem with hm | hm
    · exact Or.inl (List.mem_takeWhile_imp (p := fun c => c == '#')
        (l := (pyStrip raw).data) hm)
    · exact Or.inr (List.all_eq_true.mp h c hm)
  have hsearch : searchIDGo none ((pyStrip raw).data.map Char.toUpper) = none := by
    apply searchIDGo_no_cg
    intro c hcmem
    rcases List.mem_map.mp hcmem with ⟨d, hd, rfl⟩
    rcases hchars d hd with hh | hh
    · have : d = '#' := by simpa using hh
      subst this
      decide
    · have : d = ' ' ∨ d = '\t' ∨ d = '\r' ∨ d = '\n' := by
        simp [Char.isWhitespace] at hh
        tauto
      rcases this with rfl | rfl | rfl | rfl <;> decide
  have hsp : pySplitWs (pyLstripHash (pyStrip raw)).data = [] :=
    splitWsAux_all_ws _ _ h
  simp only [hsearch, hsp]

/-- Concrete instantiation of the amended C10: input `"#"`. -/
theorem c10_witness :
    resolve_channel_id "#" = Except.error ResolveErr.indexOutOfRange :=
  c10_hash_ws_fallback_oob "#" (by decide) (by decide)

/-! ## Lemmas about the token scanner -/

theorem contLen_le (n : Nat) (l : List Char) : contLen n l ≤ n := by
  induction n generalizing l with
  | zero => cases l <;> simp [contLen]
  | succ n ih =>
    cases l with
    | nil => simp [contLen]
    | cons c rest =>
      simp only [contLen]
      split
      · exact Nat.succ_le_succ (ih rest)
      · exact Nat.zero_le _

theorem contLen_le_length (n : Nat) (l : List Char) : contLen n l ≤ l.length := by
  induction n generalizing l with
  | zero => cases l <;> simp [contLen]
  | succ n ih =>
    cases l with
    | nil => simp [contLen]
    | cons c rest =>
      simp only [contLen, List.length_cons]
      split
      · exact Nat.succ_le_succ (ih rest)
      · exact Nat.zero_le _

theorem scanAux_spec (fuel : Nat) :
    ∀ (l : List Char), l.length ≤ fuel → ∀ (p : Nat),
      ∀ m ∈ scanAux fuel p l,
        p ≤ m.1 ∧ 2 ≤ m.2.length ∧ m.2.length ≤ 31 ∧
          (l.drop (m.1 - p)).take m.2.length = m.2 := by
  induction fuel with
  | zero =>
    intro l hl p m hm
    simp [scanAux] at hm
  | succ fuel ih =>
    intro l hl p m hm
    cases l with
    | nil => simp [scanAux] at hm
    | cons c rest =>
      simp only [List.length_cons] at hl
      by_cases hc : isAsciiAlnum c = true ∧ 0 < contLen 30 rest
      · rw [scanAux, if_pos hc] at hm
        have hkr : contLen 30 rest ≤ rest.length := contLen_le_length _ _
        have hk30 : contLen 30 rest ≤ 30 := contLen_le _ _
        have hklen : (rest.take (contLen 30 rest)).length = contLen 30 rest := by
          rw [List.length_take]
          omega
        rcases List.mem_cons.mp hm with rfl | hm2
        · refine ⟨Nat.le_refl _, ?_, ?_, ?_⟩
          · simp only [List.length_cons, hklen]
            omega
          · simp only [List.length_cons, hklen]
            omega
          · simp only [Nat.sub_self, List.drop_zero, List.length_cons, hklen,
              List.take_succ_cons]
        · have hlen : (rest.drop (contLen 30 rest)).length ≤ fuel := by
            rw [List.length_drop]
            omega
          obtain ⟨h1, h2, h3, h4⟩ := ih _ hlen _ m hm2
          refine ⟨by omega, h2, h3, ?_⟩
          rw [List.drop_drop] at h4
          have he : m.1 - p = (contLen 30 rest + (m.1 - (p + 1 + contLen 30 rest))) + 1 := by
            omega
          rw [he, List.drop_succ_cons]
          exact h4
      · rw [scanAux, if_neg hc] at hm
        have hlen : rest.length ≤ fuel := by omega
        obtain ⟨h1, h2, h3, h4⟩ := ih rest hlen (p + 1) m hm
        refine ⟨by omega, h2, h3, ?_⟩
        have he : m.1 - p = (m.1 - (p + 1)) + 1 := by omega
        rw [he, List.drop_succ_cons]
        exact h4

theorem scanAux_pos (fuel : Nat) :
    ∀ (l : List Char) (p : Nat),
      List.Pairwise (fun a b => a.1 < b.1) (scanAux fuel p l) ∧
      ∀ m ∈ scanAux fuel p l, p ≤ m.1 := by
  induction fuel with
  | zero =>
    intro l p
    constructor
    · simp [scanAux]
    · intro m hm
      simp [scanAux] at hm
  | succ fuel ih =>
    intro l p
    cases l with
    | nil =>
      constructor
      · simp [scanAux]
      · intro m hm
        simp [scanAux] at hm
    | cons c rest =>
      by_cases hc : isAsciiAlnum c = true ∧ 0 < contLen 30 rest
      · rw [scanAux, if_pos hc]
        obtain ⟨hpw, hlow⟩ := ih (rest.drop (contLen 30 rest)) (p + 1 + contLen 30 rest)
        constructor
        · refine List.Pairwise.cons ?_ hpw
          intro m hm
          have := hlow m hm
          simp only
          omega
        · intro m hm
          rcases List.mem_cons.mp hm with rfl | hm2
          · exact Nat.le_refl _
          · have := hlow m hm2
            omega
      · rw [scanAux, if_neg hc]
        obtain ⟨hpw, hlow⟩ := ih rest (p + 1)
        refine ⟨hpw, fun m hm => ?_⟩
        have := hlow m hm
        omega

theorem extract_tokens_eq_map (s : String) :
    extract_tokens s = (extractTokensPos s).map Prod.snd := by
  unfold extract_tokens extractTokensPos
  rw [List.map_filterMap]
  congr 1
  funext m
  by_cases hd : dropToken (String.mk m.2)
  · simp [hd]
  · simp [hd]

/-- C3: every token of `extract_tokens` has length between 2 and 31,
its lowercased form is not a stopword and is not purely digits, and
the tokens are emitted at strictly increasing match positions of the
input string (each token is the substring at its position, duplicate
occurrences included). -/
theorem c3_token_filter (s : String) :
    (∀ w ∈ extract_tokens s, 2 ≤ w.length ∧ w.length ≤ 31 ∧
      pyLower w ∉ STOPWORDS ∧ pyIsDigit (pyLower w) = false) ∧
    extract_tokens s = (extractTokensPos s).map Prod.snd ∧
    List.Pairwise (fun a b => a.1 < b.1) (extractTokensPos s) ∧
    ∀ m ∈ extractTokensPos s, (s.data.drop m.1).take m.2.length = m.2.data := by
  refine ⟨?_, extract_tokens_eq_map s, ?_, ?_⟩
  · intro w hw
    unfold extract_tokens at hw
    rcases List.mem_filterMap.mp hw with ⟨m, hm, hemit⟩
    by_cases hd : dropToken (String.mk m.2)
    · simp [hd] at hemit
    · simp only [hd, if_neg, if_false] at hemit
      injection hemit with hww
      subst hww
      have hspec := (scanAux_spec s.data.length s.data (Nat.le_refl _) 0 m hm).2
      unfold dropToken at hd
      push_neg at hd
      obtain ⟨hstop, hdig, hlen⟩ := hd
      refine ⟨?_, ?_, hstop, ?_⟩
      · rw [String.length_mk] at hlen ⊢
        omega
      · rw [String.length_mk]
        exact hspec.2.1
      · simpa using hdig
  · unfold extractTokensPos
    rw [List.pairwise_filterMap]
    have hpw := (scanAux_pos s.data.length s.data 0).1
    refine hpw.imp_of_mem ?_
    intro a b _ _ hab x hx y hy
    by_cases hda : dropToken (String.mk a.2)
    · simp [hda] at hx
    · rw [if_neg hda] at hx
      by_cases hdb : dropToken (String.mk b.2)
      · simp [hdb] at hy
      · rw [if_neg hdb] at hy
        cases hx
        cases hy
        exact hab
  · intro m hm
    unfold extractTokensPos at hm
    rcases List.mem_filterMap.mp hm with ⟨a, ha, hemit⟩
    by_cases hd : dropToken (String.mk a.2)
    · simp [hd] at hemit
    · rw [if_neg hd] at hemit
      cases hemit
      have hspec := scanAux_spec s.data.length s.data (Nat.le_refl _) 0 a ha
      simpa using hspec.2.2.2

/-- Concrete instantiation of the token-filter contract. -/
theorem c3_witness :
    (∀ w ∈ extract_tokens "the of Rust 42 a GO Go", 2 ≤ w.length ∧ w.length ≤ 31 ∧
      pyLower w ∉ STOPWORDS ∧ pyIsDigit (pyLower w) = false) ∧
    extract_tokens "the of Rust 42 a GO Go" =
      (extractTokensPos "the of Rust 42 a GO Go").map Prod.snd ∧
    List.Pairwise (fun a b => a.1 < b.1) (extractTokensPos "the of Rust 42 a GO Go") ∧
    ∀ m ∈ extractTokensPos "the of Rust 42 a GO Go",
      (("the of Rust 42 a GO Go" : String).data.drop m.1).take m.2.length = m.2.data :=
  c3_token_filter "the of Rust 42 a GO Go"

/-! ## Lemmas about the counter -/

theorem keys_bump (c : List (String × Nat)) (t : String) :
    (bump c t).map Prod.fst =
      if t ∈ c.map Prod.fst then c.map Prod.fst else c.map Prod.fst ++ [t] := by
  induction c with
  | nil => simp [bump]
  | cons kn rest ih =>
    obtain ⟨k, n⟩ := kn
    by_cases hk : k = t
    · subst hk
      simp [bump]
    · simp only [bump, if_neg hk, List.map_cons]
      rw [ih]
      by_cases hmem : t ∈ rest.map Prod.fst
      · have hmem2 : t ∈ k :: rest.map Prod.fst := List.mem_cons_of_mem _ hmem
        simp [hmem, hmem2]
      · have hmem2 : ¬ t ∈ k :: rest.map Prod.fst := by
          intro h
          rcases List.mem_cons.mp h with h | h
          · exact hk h.symm
          · exact hmem h
        simp [hmem, hmem2]

theorem cnt_bump_same (c : List (String × Nat)) (t : String) :
    cnt (bump c t) t = cnt c t + 1 := by
  induction c with
  | nil => simp [bump, cnt]
  | cons kn rest ih =>
    obtain ⟨k, n⟩ := kn
    by_cases hk : k = t
    · subst hk
      simp [bump, cnt]
    · simp [bump, cnt, hk, ih]

theorem cnt_bump_ne (c : List (String × Nat)) (t s : String) (h : s ≠ t) :
    cnt (bump c t) s = cnt c s := by
  induction c with
  | nil =>
    have : ¬ t = s := fun he => h he.symm
    simp [bump, cnt, this]
  | cons kn rest ih =>
    obtain ⟨k, n⟩ := kn
    by_cases hk : k = t
    · subst hk
      have : ¬ k = s := fun he => h (he.symm)
      simp [bump, cnt, this]
    · by_cases hs : k = s
      · subst hs
        simp [bump, cnt, hk]
      · simp [bump, cnt, hk, hs, ih]

theorem cnt_foldl (l : List String) (t : String) :
    ∀ c0, cnt (l.foldl bump c0) t = cnt c0 t + l.count t := by
  induction l with
  | nil =>
    intro c0
    simp
  | cons x rest ih =>
    intro c0
    simp only [List.foldl_cons, ih]
    by_cases hx : x = t
    · subst hx
      rw [cnt_bump_same]
      simp [List.count_cons]
      omega
    · rw [cnt_bump_ne _ _ _ (fun he => hx he.symm)]
      simp [List.count_cons, hx]

theorem keys_nodup_foldl (l : List String) :
    ∀ c0 : List (String × Nat), (c0.map Prod.fst).Nodup →
      ((l.foldl bump c0).map Prod.fst).Nodup := by
  induction l with
  | nil =>
    intro c0 h
    simpa using h
  | cons x rest ih =>
    intro c0 h
    simp only [List.foldl_cons]
    apply ih
    rw [keys_bump]
    by_cases hm : x ∈ c0.map Prod.fst
    · simpa [hm] using h
    · rw [if_neg hm]
      rw [List.nodup_append]
      refine ⟨h, List.nodup_singleton x, ?_⟩
      intro a ha hax
      rcases List.mem_singleton.mp hax with rfl
      exact hm ha

theorem mem_cnt (c : List (String × Nat)) (hc : (c.map Prod.fst).Nodup)
    {t : String} {n : Nat} (h : (t, n) ∈ c) : cnt c t = n := by
  induction c with
  | nil => simp at h
  | cons kn rest ih =>
    obtain ⟨k, m⟩ := kn
    simp only [List.map_cons, List.nodup_cons] at hc
    rcases List.mem_cons.mp h with he | hmem
    · have h1 : t = k := congrArg Prod.fst he
      have h2 : n = m := congrArg Prod.snd he
      subst h1
      subst h2
      simp [cnt]
    · have hk : ¬ k = t := by
        intro he
        subst he
        exact hc.1 (List.mem_map.mpr ⟨(k, n), hmem, rfl⟩)
      simp only [cnt, if_neg hk]
      exact ih hc.2 hmem

theorem firstOccs_congr (l : List String) :
    ∀ s1 s2, (∀ x, x ∈ s1 ↔ x ∈ s2) → firstOccs s1 l = firstOccs s2 l := by
  induction l with
  | nil => intro s1 s2 _; rfl
  | cons t rest ih =>
    intro s1 s2 h
    by_cases hm : t ∈ s1
    · rw [firstOccs, if_pos hm, firstOccs, if_pos ((h t).mp hm)]
      exact ih s1 s2 h
    · have hm2 : t ∉ s2 := fun hx => hm ((h t).mpr hx)
      rw [firstOccs, if_neg hm, firstOccs, if_neg hm2]
      congr 1
      exact ih (t :: s1) (t :: s2) (fun x => by simp [h x])

theorem keys_foldl_bump (l : List String) :
    ∀ c0 : List (String × Nat),
      (l.foldl bump c0).map Prod.fst =
        c0.map Prod.fst ++ firstOccs (c0.map Prod.fst) l := by
  induction l with
  | nil =>
    intro c0
    simp [firstOccs]
  | cons t rest ih =>
    intro c0
    simp only [List.foldl_cons, ih, keys_bump]
    by_cases hm : t ∈ c0.map Prod.fst
    · rw [if_pos hm, firstOccs, if_pos hm]
    · rw [if_neg hm, firstOccs, if_neg hm, List.append_assoc, List.singleton_append]
      congr 1
      congr 1
      apply firstOccs_congr
      intro x
      simp [or_comm]

theorem firstOccs_mem (l : List String) :
    ∀ seen, ∀ x ∈ firstOccs seen l, x ∈ l ∧ x ∉ seen := by
  induction l with
  | nil =>
    intro seen x hx
    simp [firstOccs] at hx
  | cons t rest ih =>
    intro seen x hx
    by_cases hm : t ∈ seen
    · rw [firstOccs, if_pos hm] at hx
      obtain ⟨h1, h2⟩ := ih seen x hx
      exact ⟨List.mem_cons_of_mem _ h1, h2⟩
    · rw [firstOccs, if_neg hm] at hx
      rcases List.mem_cons.mp hx with rfl | hx2
      · exact ⟨List.mem_cons_self _ _, hm⟩
      · obtain ⟨h1, h2⟩ := ih (t :: seen) x hx2
        exact ⟨List.mem_cons_of_mem _ h1, fun hxx => h2 (List.mem_cons_of_mem _ hxx)⟩

theorem firstOccs_pairwise (l : List String) :
    ∀ seen, List.Pairwise (fun a b => l.indexOf a < l.indexOf b) (firstOccs seen l) := by
  induction l with
  | nil =>
    intro seen
    simp [firstOccs]
  | cons t rest ih =>
    intro seen
    by_cases hm : t ∈ seen
    · rw [firstOccs, if_pos hm]
      refine (ih seen).imp_of_mem ?_
      intro a b ha hb hab
      have hat : t ≠ a := fun he =>
        (firstOccs_mem rest seen a ha).2 (by rw [← he]; exact hm)
      have hbt : t ≠ b := fun he =>
        (firstOccs_mem rest seen b hb).2 (by rw [← he]; exact hm)
      rw [List.indexOf_cons_ne _ hat, List.indexOf_cons_ne _ hbt]
      exact Nat.succ_lt_succ hab
    · rw [firstOccs, if_neg hm]
      refine List.Pairwise.cons ?_ ?_
      · intro b hb
        have hbt : t ≠ b := fun he =>
          (firstOccs_mem rest (t :: seen) b hb).2
            (by rw [← he]; exact List.mem_cons_self t seen)
        rw [List.indexOf_cons_self, List.indexOf_cons_ne _ hbt]
        exact Nat.succ_pos _
      · refine (ih (t :: seen)).imp_of_mem ?_
        intro a b ha hb hab
        have hat : t ≠ a := fun he =>
          (firstOccs_mem rest (t :: seen) a ha).2
            (by rw [← he]; exact List.mem_cons_self t seen)
        have hbt : t ≠ b := fun he =>
          (firstOccs_mem rest (t :: seen) b hb).2
            (by rw [← he]; exact List.mem_cons_self t seen)
        rw [List.indexOf_cons_ne _ hat, List.indexOf_cons_ne _ hbt]
        exact Nat.succ_lt_succ hab

/-! ## Lemmas about the stable top-K selection -/

theorem mem_insertDesc (x y : String × Nat) (l : List (String × Nat)) :
    y ∈ insertDesc x l ↔ y = x ∨ y ∈ l := by
  induction l with
  | nil => simp [insertDesc]
  | cons z zs ih =>
    by_cases h : x.2 < z.2
    · rw [insertDesc, if_pos h]
      simp only [List.mem_cons, ih]
      tauto
    · rw [insertDesc, if_neg h]
      simp only [List.mem_cons]

theorem insertDesc_perm (x : String × Nat) (l : List (String × Nat)) :
    (insertDesc x l).Perm (x :: l) := by
  induction l with
  | nil => simp [insertDesc]
  | cons z zs ih =>
    by_cases h : x.2 < z.2
    · rw [insertDesc, if_pos h]
      exact List.Perm.trans (List.Perm.cons z ih) (List.Perm.swap x z zs)
    · rw [insertDesc, if_neg h]

theorem sortCountDesc_perm (l : List (String × Nat)) : (sortCountDesc l).Perm l := by
  induction l with
  | nil => simp [sortCountDesc]
  | cons x xs ih =>
    exact List.Perm.trans (insertDesc_perm x (sortCountDesc xs)) (List.Perm.cons x ih)

theorem insertDesc_pairwise (Q : String × Nat → String × Nat → Prop)
    (x : String × Nat) (l : List (String × Nat))
    (hl : List.Pairwise (fun a b => b.2 ≤ a.2 ∧ (a.2 = b.2 → Q a b)) l)
    (hx : ∀ y ∈ l, x.2 = y.2 → Q x y) :
    List.Pairwise (fun a b => b.2 ≤ a.2 ∧ (a.2 = b.2 → Q a b)) (insertDesc x l) := by
  induction l with
  | nil => simp [insertDesc]
  | cons z zs ih =>
    rcases List.pairwise_cons.mp hl with ⟨hz, hzs⟩
    by_cases h : x.2 < z.2
    · rw [insertDesc, if_pos h]
      refine List.Pairwise.cons ?_ (ih hzs (fun y hy => hx y (List.mem_cons_of_mem _ hy)))
      intro b hb
      rcases (mem_insertDesc x b zs).mp hb with rfl | hbz
      · exact ⟨Nat.le_of_lt h, fun he => ((by omega : False)).elim⟩
      · exact hz b hbz
    · rw [insertDesc, if_neg h]
      push_neg at h
      refine List.Pairwise.cons ?_ hl
      intro b hb
      rcases List.mem_cons.mp hb with rfl | hbz
      · exact ⟨h, hx b (List.mem_cons_self _ _)⟩
      · have hzb := hz b hbz
        exact ⟨le_trans hzb.1 h, fun he => hx b (List.mem_cons_of_mem _ hbz) he⟩

theorem sortCountDesc_pairwise (Q : String × Nat → String × Nat → Prop)
    (l : List (String × Nat))
    (hl : List.Pairwise (fun a b => a.2 = b.2 → Q a b) l) :
    List.Pairwise (fun a b => b.2 ≤ a.2 ∧ (a.2 = b.2 → Q a b)) (sortCountDesc l) := by
  induction l with
  | nil => simp [sortCountDesc]
  | cons x xs ih =>
    rcases List.pairwise_cons.mp hl with ⟨hx, hxs⟩
    rw [sortCountDesc]
    refine insertDesc_pairwise Q x (sortCountDesc xs) (ih hxs) ?_
    intro y hy
    exact hx y ((sortCountDesc_perm xs).mem_iff.mp hy)

/-! ## Lemmas about `buildCounter` and `analyze` -/

theorem buildCounter_keys_firstOccs (items : List Item) :
    (buildCounter items).map Prod.fst = firstOccs [] (tokenStream items) := by
  have h := keys_foldl_bump (tokenStream items) []
  simpa [buildCounter] using h

theorem buildCounter_pairwise_idx (items : List Item) :
    List.Pairwise
      (fun a b => (tokenStream items).indexOf a.1 < (tokenStream items).indexOf b.1)
      (buildCounter items) := by
  have h := firstOccs_pairwise (tokenStream items) []
  rw [← buildCounter_keys_firstOccs items] at h
  exact (List.pairwise_map (R := fun a b : String =>
    (tokenStream items).indexOf a < (tokenStream items).indexOf b)).mp h

theorem buildCounter_keys_nodup (items : List Item) :
    ((buildCounter items).map Prod.fst).Nodup := by
  rw [buildCounter_keys_firstOccs items]
  have h := firstOccs_pairwise (tokenStream items) []
  exact h.imp (fun hab he => by rw [he] at hab; exact Nat.lt_irrefl _ hab)

theorem buildCounter_count (items : List Item) {t : String} {n : Nat}
    (h : (t, n) ∈ buildCounter items) : n = (tokenStream items).count t := by
  have hm := mem_cnt (buildCounter items) (buildCounter_keys_nodup items) h
  unfold buildCounter at hm
  rw [cnt_foldl (tokenStream items) t []] at hm
  simpa [cnt] using hm.symm

theorem analyze_fst (items : List Item) :
    (analyze items).1 = (sortCountDesc (buildCounter items)).take TOP_K := rfl

/-- C1 counterexample: in the single title `"aa bb bb aa"` both tokens
end with count 2 and `analyze` ranks `"aa"` first (insertion order),
although `"bb"` is the first token to reach its final count (its last
occurrence comes earlier) — so "first token to reach its current count
keeps priority" fails. -/
theorem c1_counterexample_reach_order :
    (analyze [Item.mk "S" "aa bb bb aa" "L"]).1 = [("aa", 2), ("bb", 2)] ∧
    reachIdx (tokenStream [Item.mk "S" "aa bb bb aa" "L"]) "bb" <
      reachIdx (tokenStream [Item.mk "S" "aa bb bb aa" "L"]) "aa" :=
  ⟨by decide, by decide⟩

/-- C1 (amended): the ranked list of `analyze` is exactly the TOP_K
entries of the token-count table: its length is the minimum of `TOP_K`
and the table size, its entries are table entries, every excluded
table entry is beaten by every selected entry (smaller count, or equal
count with a later first occurrence), and the list is ordered by count
descending with ties broken by the counter's insertion order, i.e. the
token whose FIRST occurrence in the token stream comes earlier keeps
priority. -/
theorem c1_top_stable_ranking (items : List Item) :
    (analyze items).1.length = min TOP_K (buildCounter items).length ∧
    (∀ e ∈ (analyze items).1, e ∈ buildCounter items) ∧
    (∀ e ∈ buildCounter items, e ∉ (analyze items).1 →
      ∀ f ∈ (analyze items).1, e.2 ≤ f.2 ∧ (e.2 = f.2 →
        (tokenStream items).indexOf f.1 < (tokenStream items).indexOf e.1)) ∧
    List.Pairwise (fun a b => b.2 ≤ a.2 ∧ (a.2 = b.2 →
      (tokenStream items).indexOf a.1 < (tokenStream items).indexOf b.1))
      (analyze items).1 := by
  have hperm := sortCountDesc_perm (buildCounter items)
  have hTT : List.Pairwise (fun a b : String × Nat => a.2 = b.2 →
      (tokenStream items).indexOf a.1 < (tokenStream items).indexOf b.1)
      (buildCounter items) := by
    refine (buildCounter_pairwise_idx items).imp ?_
    intro a b h _
    exact h
  have hpair := sortCountDesc_pairwise
    (fun a b => (tokenStream items).indexOf a.1 < (tokenStream items).indexOf b.1)
    (buildCounter items) hTT
  refine ⟨?_, ?_, ?_, ?_⟩
  · rw [analyze_fst, List.length_take, hperm.length_eq]
  · intro e he
    rw [analyze_fst] at he
    exact hperm.mem_iff.mp ((List.take_sublist _ _).subset he)
  · intro e he hne f hf
    rw [analyze_fst] at hne hf
    have hes : e ∈ sortCountDesc (buildCounter items) := hperm.mem_iff.mpr he
    rw [← List.take_append_drop TOP_K (sortCountDesc (buildCounter items))] at hes
    rcases List.mem_append.mp hes with h1 | h1
    · exact absurd h1 hne
    · have hsplit : List.Pairwise (fun a b => b.2 ≤ a.2 ∧ (a.2 = b.2 →
          (tokenStream items).indexOf a.1 < (tokenStream items).indexOf b.1))
          ((sortCountDesc (buildCounter items)).take TOP_K ++
            (sortCountDesc (buildCounter items)).drop TOP_K) := by
        rw [List.take_append_drop]
        exact hpair
      have hfe := (List.pairwise_append.mp hsplit).2.2 f hf e h1
      exact ⟨hfe.1, fun hef => hfe.2 hef.symm⟩
  · rw [analyze_fst]
    exact List.Pairwise.sublist (List.take_sublist _ _) hpair

/-- Concrete instantiation of the stable-ranking contract. -/
theorem c1_witness :
    (analyze [Item.mk "S" "aa bb bb aa cc" "L"]).1.length =
      min TOP_K (buildCounter [Item.mk "S" "aa bb bb aa cc" "L"]).length ∧
    (∀ e ∈ (analyze [Item.mk "S" "aa bb bb aa cc" "L"]).1,
      e ∈ buildCounter [Item.mk "S" "aa bb bb aa cc" "L"]) ∧
    (∀ e ∈ buildCounter [Item.mk "S" "aa bb bb aa cc" "L"],
      e ∉ (analyze [Item.mk "S" "aa bb bb aa cc" "L"]).1 →
      ∀ f ∈ (analyze [Item.mk "S" "aa bb bb aa cc" "L"]).1, e.2 ≤ f.2 ∧ (e.2 = f.2 →
        (tokenStream [Item.mk "S" "aa bb bb aa cc" "L"]).indexOf f.1 <
          (tokenStream [Item.mk "S" "aa bb bb aa cc" "L"]).indexOf e.1)) ∧
    List.Pairwise (fun a b => b.2 ≤ a.2 ∧ (a.2 = b.2 →
      (tokenStream [Item.mk "S" "aa bb bb aa cc" "L"]).indexOf a.1 <
        (tokenStream [Item.mk "S" "aa bb bb aa cc" "L"]).indexOf b.1))
      (analyze [Item.mk "S" "aa bb bb aa cc" "L"]).1 :=
  c1_top_stable_ranking [Item.mk "S" "aa bb bb aa cc" "L"]

/-- C2: the ranked list has length at most `TOP_K`, its counts are
non-increasing by rank, and every entry's count is the exact
(case-sensitive) number of occurrences of the token across the
tokenizations of all items' titles. -/
theorem c2_ranking_monotonicity (items : List Item) :
    (analyze items).1.length ≤ TOP_K ∧
    List.Pairwise (fun a b => b.2 ≤ a.2) (analyze items).1 ∧
    ∀ e ∈ (analyze items).1, e.2 = (tokenStream items).count e.1 := by
  have hperm := sortCountDesc_perm (buildCounter items)
  have hTT : List.Pairwise (fun a b : String × Nat => a.2 = b.2 →
      (tokenStream items).indexOf a.1 < (tokenStream items).indexOf b.1)
      (buildCounter items) := by
    refine (buildCounter_pairwise_idx items).imp ?_
    intro a b h _
    exact h
  have hpair := sortCountDesc_pairwise
    (fun a b => (tokenStream items).indexOf a.1 < (tokenStream items).indexOf b.1)
    (buildCounter items) hTT
  refine ⟨?_, ?_, ?_⟩
  · rw [analyze_fst, List.length_take]
    omega
  · rw [analyze_fst]
    exact (List.Pairwise.sublist (List.take_sublist _ _) hpair).imp (fun h => h.1)
  · intro e he
    rw [analyze_fst] at he
    have hmem : e ∈ buildCounter items :=
      hperm.mem_iff.mp ((List.take_sublist _ _).subset he)
    obtain ⟨t, n⟩ := e
    exact buildCounter_count items hmem

/-- Concrete instantiation of the ranking-monotonicity contract. -/
theorem c2_witness :
    (analyze [Item.mk "S" "aa bb bb aa cc" "L"]).1.length ≤ TOP_K ∧
    List.Pairwise (fun a b => b.2 ≤ a.2)
      (analyze [Item.mk "S" "aa bb bb aa cc" "L"]).1 ∧
    ∀ e ∈ (analyze [Item.mk "S" "aa bb bb aa cc" "L"]).1,
      e.2 = (tokenStream [Item.mk "S" "aa bb bb aa cc" "L"]).count e.1 :=
  c2_ranking_monotonicity [Item.mk "S" "aa bb bb aa cc" "L"]

/-! ## Lemmas about the evidence index -/

theorem top_keys_nodup (items : List Item) :
    ((analyze items).1.map Prod.fst).Nodup := by
  rw [analyze_fst]
  have hperm := (sortCountDesc_perm (buildCounter items)).map Prod.fst
  have hnd : ((sortCountDesc (buildCounter items)).map Prod.fst).Nodup :=
    hperm.nodup_iff.mpr (buildCounter_keys_nodup items)
  exact List.Nodup.sublist ((List.take_sublist _ _).map Prod.fst) hnd

theorem foldl_relatedInner_eval (it : Item) (tops : List (String × Nat)) :
    ∀ (rel : String → List Item) (k : String), (tops.map Prod.fst).Nodup →
      (tops.foldl (relatedInner it) rel) k =
        if k ∈ tops.map Prod.fst then relatedStep k (rel k) it else rel k := by
  induction tops with
  | nil =>
    intro rel k _
    simp
  | cons kc rest ih =>
    intro rel k hnd
    simp only [List.map_cons, List.nodup_cons] at hnd
    obtain ⟨hnotin, hnd2⟩ := hnd
    simp only [List.foldl_cons]
    rw [ih (relatedInner it rel kc) k hnd2]
    by_cases hk : k = kc.1
    · subst hk
      rw [if_neg hnotin, List.map_cons, if_pos (List.mem_cons_self _ _)]
      unfold relatedInner relatedStep
      by_cases hcond : kc.1 ∈ extract_tokens it.title ∧ it.link ≠ "" ∧
          (rel kc.1).length < POST_LIMIT_PER_SOURCE
      · rw [if_pos hcond, if_pos hcond]
        exact Function.update_same _ _ _
      · rw [if_neg hcond, if_neg hcond]
    · have hinner : relatedInner it rel kc k = rel k := by
        unfold relatedInner
        split
        · exact Function.update_noteq hk _ _
        · rfl
      rw [hinner, List.map_cons]
      by_cases hmem : k ∈ rest.map Prod.fst
      · rw [if_pos hmem, if_pos (List.mem_cons_of_mem _ hmem)]
      · have hm2 : ¬ k ∈ kc.1 :: rest.map Prod.fst := by
          intro h
          rcases List.mem_cons.mp h with h | h
          · exact hk h
          · exact hmem h
        rw [if_neg hmem, if_neg hm2]

theorem foldl_outer_eval (tops : List (String × Nat))
    (hnd : (tops.map Prod.fst).Nodup) (items : List Item) (k : String) :
    ∀ rel : String → List Item,
      (items.foldl (fun rel it => tops.foldl (relatedInner it) rel) rel) k =
        if k ∈ tops.map Prod.fst then items.foldl (relatedStep k) (rel k) else rel k := by
  induction items with
  | nil =>
    intro rel
    by_cases hm : k ∈ tops.map Prod.fst <;> simp [hm]
  | cons it rest ih =>
    intro rel
    simp only [List.foldl_cons]
    rw [ih (tops.foldl (relatedInner it) rel),
      foldl_relatedInner_eval it tops rel k hnd]
    by_cases hm : k ∈ tops.map Prod.fst
    · rw [if_pos hm, if_pos hm, if_pos hm]
    · rw [if_neg hm, if_neg hm, if_neg hm]

theorem analyze_snd_eval (items : List Item) (k : String) :
    (analyze items).2 k =
      if k ∈ ((analyze items).1.map Prod.fst) then relatedFor k items else [] := by
  have h := foldl_outer_eval ((analyze items).1) (top_keys_nodup items) items k
    (fun _ => ([] : List Item))
  exact h

theorem foldl_relatedStep_spec (k : String) (items : List Item) :
    ∀ acc : List Item, acc.length ≤ POST_LIMIT_PER_SOURCE →
      (items.foldl (relatedStep k) acc).length ≤ POST_LIMIT_PER_SOURCE ∧
      ∃ t, items.foldl (relatedStep k) acc = acc ++ t ∧ List.Sublist t items ∧
        ∀ it ∈ t, it.link ≠ "" ∧ k ∈ extract_tokens it.title := by
  induction items with
  | nil =>
    intro acc hacc
    exact ⟨hacc, [], by simp, List.nil_sublist _, by simp⟩
  | cons it rest ih =>
    intro acc hacc
    simp only [List.foldl_cons]
    by_cases hcond : k ∈ extract_tokens it.title ∧ it.link ≠ "" ∧
        acc.length < POST_LIMIT_PER_SOURCE
    · have hstep : relatedStep k acc it = acc ++ [it] := by
        simp only [relatedStep, if_pos hcond]
      rw [hstep]
      have hlen : (acc ++ [it]).length ≤ POST_LIMIT_PER_SOURCE := by
        rw [List.length_append, List.length_singleton]
        omega
      obtain ⟨hl, t, heq, hsub, hprops⟩ := ih (acc ++ [it]) hlen
      refine ⟨hl, it :: t, ?_, List.Sublist.cons₂ it hsub, ?_⟩
      · rw [heq, List.append_assoc, List.singleton_append]
      · intro x hx
        rcases List.mem_cons.mp hx with rfl | hx2
        · exact ⟨hcond.2.1, hcond.1⟩
        · exact hprops x hx2
    · have hstep : relatedStep k acc it = acc := by
        simp only [relatedStep, if_neg hcond]
      rw [hstep]
      obtain ⟨hl, t, heq, hsub, hprops⟩ := ih acc hacc
      exact ⟨hl, t, heq, List.Sublist.cons it hsub, hprops⟩

/-- C4: for every ranked keyword, the evidence list of `analyze` has
length at most `POST_LIMIT_PER_SOURCE`, lists items in the original
order of the item set (a subsequence), and only items with a
non-empty link whose title's token set contains the keyword exactly
(case-sensitive). -/
theorem c4_evidence_bounded (items : List Item) (k : String)
    (hk : k ∈ ((analyze items).1.map Prod.fst)) :
    ((analyze items).2 k).length ≤ POST_LIMIT_PER_SOURCE ∧
    List.Sublist ((analyze items).2 k) items ∧
    ∀ it ∈ (analyze items).2 k, it.link ≠ "" ∧ k ∈ extract_tokens it.title := by
  rw [analyze_snd_eval items k, if_pos hk]
  obtain ⟨hl, t, heq, hsub, hprops⟩ :=
    foldl_relatedStep_spec k items [] (Nat.zero_le _)
  have heq2 : relatedFor k items = t := by
    unfold relatedFor
    rw [heq, List.nil_append]
  have hl2 : (relatedFor k items).length ≤ POST_LIMIT_PER_SOURCE := hl
  rw [heq2] at hl2 ⊢
  exact ⟨hl2, hsub, hprops⟩

/-- Concrete instantiation of the evidence contract at keyword
`"Rust"`. -/
theorem c4_witness :
    ((analyze [Item.mk "A" "Rust fast" "http://a"]).2 "Rust").length ≤
      POST_LIMIT_PER_SOURCE ∧
    List.Sublist ((analyze [Item.mk "A" "Rust fast" "http://a"]).2 "Rust")
      [Item.mk "A" "Rust fast" "http://a"] ∧
    ∀ it ∈ (analyze [Item.mk "A" "Rust fast" "http://a"]).2 "Rust",
      it.link ≠ "" ∧ "Rust" ∈ extract_tokens it.title :=
  c4_evidence_bounded [Item.mk "A" "Rust fast" "http://a"] "Rust" (by decide)

end Trend
